import Mathlib

/-!
# Hyperion: UDP listener, OSX grabber front-end and authorization manager

A shallow embedding of

* `UDPListener::processTheDatagram` (libsrc/udplistener/UDPListener.cpp),
* the construction of the `OsxWrapper` in `main` (src/hyperion-osx/hyperion-osx.cpp),
* the inline members of `AuthManager` (include/hyperion/AuthManager.h) and, for the
  members that the header only declares, a model of the pending-request workflow,

followed by the properties proved about them.
-/

namespace Hyperion

/-! ## utils/ColorRgb -/

/-- An RGB color. The three channels are `uint8_t` in the source and are kept here as
natural numbers; every value stored by the code below is reduced modulo 256. -/
structure ColorRgb where
  red : Nat
  green : Nat
  blue : Nat
deriving DecidableEq, Repr

/-- The constant `ColorRgb::BLACK` (declared in utils/ColorRgb.h): all channels zero. -/
def ColorRgb.BLACK : ColorRgb := ⟨0, 0, 0⟩

/-! ## UDPListener -/

/-- A `QByteArray`: a sequence of bytes, each a natural number (a well-formed array holds
values below 256). -/
abbrev QByteArray := List Nat

/-- The value of a byte read as a `char`. Whether plain `char` is signed depends on the
platform, so the signedness is an argument: a signed `char` maps the bytes 128..255 to
-128..-1, an unsigned one leaves them as they are. -/
def byteToChar (signedChar : Bool) (b : Nat) : Int :=
  if signedChar && decide (128 ≤ b % 256) then (b % 256 : Int) - 256 else (b % 256 : Int)

/-- `QByteArray::at(i)`: the `char` at position `i`; `none` when `i` is not a valid index
(the source asserts `i` to be in range). -/
def QByteArray.at (signedChar : Bool) (datagram : QByteArray) (i : Nat) : Option Int :=
  match datagram[i]? with
  | some b => some (byteToChar signedChar b)
  | none => none

/-- Conversion of a `char` to `uint8_t` on assignment to a channel: reduction modulo 2^8. -/
def charToUInt8 (c : Int) : Nat := (c % 256).toNat

/-- The arguments of the call `_hyperion->setColors(_priority, _ledColors, _timeout, -1,
hyperion::COMP_UDPLISTENER, sender->toString())`. The component is the constant
`COMP_UDPLISTENER` and is not recorded. -/
structure SetColorsCall where
  priority : Int
  ledColors : List ColorRgb
  timeout_ms : Int
  fourth : Int
  origin : String
deriving DecidableEq, Repr

/-- The fields of a `UDPListener` that `processTheDatagram` reads. -/
structure UDPListener where
  _priority : Int
  _timeout : Int
deriving DecidableEq, Repr

/-- The body of the `for` loop of `processTheDatagram` at index `ledIndex`: takes the
reference `_ledColors[ledIndex]` and assigns its three channels from the datagram.
The result is `none` when the vector index or one of the three datagram positions is out
of range. -/
def processTheDatagram.body (signedChar : Bool) (datagram : QByteArray)
    (ledColors : List ColorRgb) (ledIndex : Nat) : Option (List ColorRgb) :=
  if ledIndex < ledColors.length then
    match QByteArray.at signedChar datagram (ledIndex * 3 + 0),
          QByteArray.at signedChar datagram (ledIndex * 3 + 1),
          QByteArray.at signedChar datagram (ledIndex * 3 + 2) with
    | some r, some g, some b =>
        some (ledColors.set ledIndex ⟨charToUInt8 r, charToUInt8 g, charToUInt8 b⟩)
    | _, _, _ => none
  else none

/-- The number of iterations of the loop: `qMin(packetLedCount, hyperionLedCount)` with
`packetLedCount = datagram->size()/3`. -/
def processTheDatagram.loopBound (datagram : QByteArray) (hyperionLedCount : Nat) : Nat :=
  let packetLedCount := datagram.length / 3
  min packetLedCount hyperionLedCount

/-- `UDPListener::processTheDatagram`. `ledCount` is the value of
`Hyperion::getInstance()->getLedCount()`, a non-negative `int`; `sender` is
`sender->toString()`. The result is the `setColors` call made at the end, or `none` when
an access inside the loop is out of range. -/
def UDPListener.processTheDatagram (self : UDPListener) (signedChar : Bool) (ledCount : Nat)
    (datagram : QByteArray) (sender : String) : Option SetColorsCall :=
  let hyperionLedCount := ledCount
  let _ledColors := List.replicate ledCount ColorRgb.BLACK
  match (List.range (processTheDatagram.loopBound datagram hyperionLedCount)).foldlM
      (processTheDatagram.body signedChar datagram) _ledColors with
  | some colors => some ⟨self._priority, colors, self._timeout, -1, sender⟩
  | none => none

/-- The color decoded from the three bytes of LED `i` (zero for a missing byte). -/
def decodeLed (datagram : QByteArray) (i : Nat) : ColorRgb :=
  ⟨datagram.getD (i * 3 + 0) 0 % 256, datagram.getD (i * 3 + 1) 0 % 256,
    datagram.getD (i * 3 + 2) 0 % 256⟩

/-! ## hyperion-osx -/

/-- What `main` reads from the command-line parser after `parser.process(app)`. The class
`Parser` (commandline/Parser.h) is not among the sources, so the outcome of parsing is
taken as given: `display` is the value supplied with `--display` / `-d` (`none` when the
option is absent), the other fields are the results of `argFps.getInt(parser)`,
`argWidth.getInt(parser)` and `argHeight.getInt(parser)`. -/
structure ParsedCommandLine where
  display : Option String
  framerate : Int
  width : Int
  height : Int
deriving DecidableEq, Repr

/-- `parser.isSet(argDisplay)`: whether the option was given on the command line. -/
def ParsedCommandLine.isSetDisplay (parser : ParsedCommandLine) : Bool :=
  parser.display.isSome

/-- Integral conversion of a `bool` argument: `false` becomes 0 and `true` becomes 1. -/
def boolToUnsigned (b : Bool) : Nat := if b then 1 else 0

/-- The four arguments with which `main` constructs the `OsxWrapper`. -/
structure OsxWrapperArgs where
  display : Nat
  grabWidth : Int
  grabHeight : Int
  updateRate : Int
deriving DecidableEq, Repr

/-- The construction `OsxWrapper osxWrapper(parser.isSet(argDisplay),
argWidth.getInt(parser), argHeight.getInt(parser), 1000 / argFps.getInt(parser))`. -/
def main.osxWrapper (parser : ParsedCommandLine) : OsxWrapperArgs :=
  ⟨boolToUnsigned parser.isSetDisplay, parser.width, parser.height,
    Int.tdiv 1000 parser.framerate⟩

/-- The command line `hyperion-osx -d 2` (all other options at their defaults). -/
def commandLineDisplay2 : ParsedCommandLine := ⟨some "2", 10, 160, 160⟩

/-- The command line `hyperion-osx -d 3` (all other options at their defaults). -/
def commandLineDisplay3 : ParsedCommandLine := ⟨some "3", 10, 160, 160⟩

/-! ## AuthManager -/

/-- A `QObject*`: the address of the caller, used only to route the reply. -/
abbrev QObjectPtr := Nat

/-- `AuthManager::AuthDefinition`. `timeoutTime` is a `uint64_t`. -/
structure AuthDefinition where
  id : String
  comment : String
  caller : QObjectPtr
  timeoutTime : Nat
  token : String
  lastUse : String
deriving DecidableEq, Repr

/-- A `QMap<QString, AuthDefinition>` kept as an association list of key and value. The
order of the entries carries no meaning. -/
abbrev PendingMap := List (String × AuthDefinition)

/-- The data members of `AuthManager`. The objects behind the three pointers
(`AuthTable* _authTable`, `MetaTable* _metaTable`, `QTimer* _timer`) belong to classes
that are not among the sources; their states are the type parameters. -/
structure AuthManager (AuthTable MetaTable QTimer : Type) where
  _authTable : AuthTable
  _metaTable : MetaTable
  _uuid : String
  _pendingRequests : PendingMap
  _authRequired : Bool
  _localAuthRequired : Bool
  _localAdminAuthRequired : Bool
  _timer : QTimer

/-- The signals of `AuthManager`, with the arguments of one emission. -/
inductive Signal where
  | newPendingTokenRequest (id comment : String)
  | tokenResponse (success : Bool) (caller : QObjectPtr) (token comment id : String)
deriving DecidableEq, Repr

/-- The request id carried by a signal (the last argument of `tokenResponse`, the first
of `newPendingTokenRequest`). -/
def Signal.requestId : Signal → String
  | Signal.newPendingTokenRequest id _ => id
  | Signal.tokenResponse _ _ _ _ id => id

section AuthManagerMembers

variable {AuthTable MetaTable QTimer : Type}

/-! ### Members defined in the header

Every member returns its result together with the manager state after the call. -/

/-- `const QString & getID() { return _uuid; }`. -/
def AuthManager.getID (self : AuthManager AuthTable MetaTable QTimer) :
    String × AuthManager AuthTable MetaTable QTimer :=
  (self._uuid, self)

/-- `const bool & isAuthRequired() { return _authRequired; }`. -/
def AuthManager.isAuthRequired (self : AuthManager AuthTable MetaTable QTimer) :
    Bool × AuthManager AuthTable MetaTable QTimer :=
  (self._authRequired, self)

/-- `const bool & isLocalAuthRequired() { return _localAuthRequired; }`. -/
def AuthManager.isLocalAuthRequired (self : AuthManager AuthTable MetaTable QTimer) :
    Bool × AuthManager AuthTable MetaTable QTimer :=
  (self._localAuthRequired, self)

/-- `const bool & isLocalAdminAuthRequired() { return _localAdminAuthRequired; }`. -/
def AuthManager.isLocalAdminAuthRequired (self : AuthManager AuthTable MetaTable QTimer) :
    Bool × AuthManager AuthTable MetaTable QTimer :=
  (self._localAdminAuthRequired, self)

/-- `const bool hasHyperionDefaultPw() { return isUserAuthorized("Hyperion","hyperion"); }`.
The member `isUserAuthorized` is only declared in the header; it is an argument here, a
function of the manager state, the user and the password that returns the answer and the
state after the call. -/
def AuthManager.hasHyperionDefaultPw
    (isUserAuthorized : AuthManager AuthTable MetaTable QTimer → String → String →
      Bool × AuthManager AuthTable MetaTable QTimer)
    (self : AuthManager AuthTable MetaTable QTimer) :
    Bool × AuthManager AuthTable MetaTable QTimer :=
  isUserAuthorized self "Hyperion" "hyperion"

/-- The default argument of `getUserToken(const QString & usr = "Hyperion")`. -/
def AuthManager.getUserToken.usrDefault : String := "Hyperion"

/-! ### The pending-request map -/

/-- Whether the map holds an entry under the key `id`. -/
def PendingMap.contains (m : PendingMap) (id : String) : Bool :=
  m.any (fun e => decide (e.1 = id))

/-- The value stored under the key `id`, if any. -/
def PendingMap.value? : PendingMap → String → Option AuthDefinition
  | [], _ => none
  | (k, d) :: rest, id => if k = id then some d else PendingMap.value? rest id

/-- Removal of the key `id`: every entry stored under it is dropped. -/
def PendingMap.remove (m : PendingMap) (id : String) : PendingMap :=
  m.filter (fun e => !decide (e.1 = id))

/-- Insertion under the key `id`; an entry already stored under that key is replaced. -/
def PendingMap.insert (m : PendingMap) (id : String) (d : AuthDefinition) : PendingMap :=
  (id, d) :: PendingMap.remove m id

/-- The entries stored under the key `id`. -/
def PendingMap.entriesOf (m : PendingMap) (id : String) : PendingMap :=
  m.filter (fun e => decide (e.1 = id))

/-- The keys of the map, in the order of its entries. -/
def PendingMap.keys (m : PendingMap) : List String := m.map Prod.fst

/-- The representation invariant of the pending-request map: no key occurs twice and
every entry is stored under the key equal to its own `id` field. -/
def PendingMap.WellFormed (m : PendingMap) : Prop :=
  (PendingMap.keys m).Nodup ∧ ∀ e ∈ m, e.2.id = e.1

instance PendingMap.decidableWellFormed (m : PendingMap) :
    Decidable (PendingMap.WellFormed m) :=
  inferInstanceAs (Decidable ((PendingMap.keys m).Nodup ∧ ∀ e ∈ m, e.2.id = e.1))

/-! ### Members declared in the header and implemented elsewhere

The bodies of `setNewTokenRequest`, `acceptTokenRequest`, `denyTokenRequest`,
`getPendingRequests` and `checkTimeout` are not among the sources. They are
modelled from sections 4.2 and 4.3 of the specification. -/

/-- Modelled from the spec: the outcome of `PendingRequestRegistry.resolve`, whose body
is missing. Either `NOT_FOUND`, or a success carrying the token (empty for a denial), the
requester handle, the comment and the id. -/
inductive ResolutionResult where
  | NOT_FOUND
  | resolved (token : String) (requesterHandle : QObjectPtr) (comment id : String)
deriving DecidableEq, Repr

/-- Modelled from the spec: `PendingRequestRegistry.resolve(id, accept)`, whose body is
missing. "Looks up `id`; if absent, returns NOT_FOUND. If present: removes the entry, and
if `accept` is true, triggers token issuance for the associated user and returns the new
token plus `requesterHandle`, `comment`, `id`; if false, returns success-with-no-token
plus the same addressing fields." Token issuance belongs to the credential store and is
the argument `issueToken`: from the store and the request it yields the new token and
the store afterwards. -/
def AuthManager.resolve (issueToken : AuthTable → AuthDefinition → String × AuthTable)
    (self : AuthManager AuthTable MetaTable QTimer) (id : String) (accept : Bool) :
    ResolutionResult × AuthManager AuthTable MetaTable QTimer :=
  match PendingMap.value? self._pendingRequests id with
  | none => (ResolutionResult.NOT_FOUND, self)
  | some d =>
    let pending := PendingMap.remove self._pendingRequests id
    if accept then
      let issued := issueToken self._authTable d
      (ResolutionResult.resolved issued.1 d.caller d.comment id,
        { self with _pendingRequests := pending, _authTable := issued.2 })
    else
      (ResolutionResult.resolved "" d.caller d.comment id,
        { self with _pendingRequests := pending })

/-- Modelled from the spec: `acceptTokenRequest(id)`, declared in the header without a
body. "Forward to PendingRequestRegistry.resolve with accept=true; return false if
NOT_FOUND; on success emit a resolution notification `(success, requesterHandle, token,
comment, id)`." The result is the returned `bool`, the state afterwards and the signals
emitted. -/
def AuthManager.acceptTokenRequest
    (issueToken : AuthTable → AuthDefinition → String × AuthTable)
    (self : AuthManager AuthTable MetaTable QTimer) (id : String) :
    Bool × AuthManager AuthTable MetaTable QTimer × List Signal :=
  match AuthManager.resolve issueToken self id true with
  | (ResolutionResult.NOT_FOUND, s) => (false, s, [])
  | (ResolutionResult.resolved token handle comment rid, s) =>
    (true, s, [Signal.tokenResponse true handle token comment rid])

/-- Modelled from the spec: `denyTokenRequest(id)`, declared in the header without a
body. "Forward to PendingRequestRegistry.resolve with accept=false; return false if
NOT_FOUND; on success emit a resolution notification" in which "`token` is empty when
`success` is false". -/
def AuthManager.denyTokenRequest
    (issueToken : AuthTable → AuthDefinition → String × AuthTable)
    (self : AuthManager AuthTable MetaTable QTimer) (id : String) :
    Bool × AuthManager AuthTable MetaTable QTimer × List Signal :=
  match AuthManager.resolve issueToken self id false with
  | (ResolutionResult.NOT_FOUND, s) => (false, s, [])
  | (ResolutionResult.resolved token handle comment rid, s) =>
    (true, s, [Signal.tokenResponse false handle token comment rid])

/-- Modelled from the spec: `setNewTokenRequest(caller, comment, id)`, declared in the
header without a body. "Forwards to PendingRequestRegistry.submit; emits a new pending
request notification carrying `(id, comment)`." For an id that is already pending the
policy the specification recommends is followed: "last submission with the same id
replaces the prior one". The deadline fixed at submission is the argument `timeoutTime`;
the token and the last use are empty until the request is resolved. -/
def AuthManager.setNewTokenRequest (self : AuthManager AuthTable MetaTable QTimer)
    (caller : QObjectPtr) (comment id : String) (timeoutTime : Nat) :
    AuthManager AuthTable MetaTable QTimer × List Signal :=
  ({ self with
      _pendingRequests :=
        PendingMap.insert self._pendingRequests id ⟨id, comment, caller, timeoutTime, "", ""⟩ },
    [Signal.newPendingTokenRequest id comment])

/-- Modelled from the spec: `getPendingRequests()`, declared in the header without a
body: a snapshot of the pending-request map. -/
def AuthManager.getPendingRequests (self : AuthManager AuthTable MetaTable QTimer) :
    PendingMap × AuthManager AuthTable MetaTable QTimer :=
  (self._pendingRequests, self)

/-- Modelled from the spec: the test "deadline has passed" of the sweep, whose body is
missing. A deadline has passed once the current time lies after it. -/
def deadlinePassed (timeoutTime now : Nat) : Bool := decide (timeoutTime < now)

/-- Modelled from the spec: the scan of `checkTimeout` over the entries of the map, whose
body is missing. An entry whose deadline has passed is dropped and answered with
`tokenResponse(false, caller, "", comment, id)`; any other entry is kept. The result is
the entries kept and the signals emitted. -/
def checkTimeout.scan (now : Nat) : PendingMap → PendingMap × List Signal
  | [] => ([], [])
  | (k, d) :: rest =>
    let r := checkTimeout.scan now rest
    if deadlinePassed d.timeoutTime now then
      (r.1, Signal.tokenResponse false d.caller "" d.comment d.id :: r.2)
    else
      ((k, d) :: r.1, r.2)

/-- Modelled from the spec: `checkTimeout()`, declared in the header without a body.
"Removes and returns every entry whose deadline has passed. Each returned expired entry
triggers the same notification path as an explicit deny (failure, no token)." The current
time read by the member is the argument `now`. -/
def AuthManager.checkTimeout (self : AuthManager AuthTable MetaTable QTimer) (now : Nat) :
    AuthManager AuthTable MetaTable QTimer × List Signal :=
  let r := checkTimeout.scan now self._pendingRequests
  ({ self with _pendingRequests := r.1 }, r.2)

/-! ### Sequences of calls -/

/-- One call of a member that acts on the pending-request map. -/
inductive Op where
  | setNewTokenRequest (caller : QObjectPtr) (comment id : String) (timeoutTime : Nat)
  | acceptTokenRequest (id : String)
  | denyTokenRequest (id : String)
  | checkTimeout (now : Nat)
deriving DecidableEq, Repr

/-- Whether the call is a submission of the request id `id`. -/
def Op.submits (id : String) : Op → Bool
  | Op.setNewTokenRequest _ _ rid _ => decide (rid = id)
  | _ => false

/-- The state after one call and the signals it emits. -/
def AuthManager.step (issueToken : AuthTable → AuthDefinition → String × AuthTable)
    (self : AuthManager AuthTable MetaTable QTimer) :
    Op → AuthManager AuthTable MetaTable QTimer × List Signal
  | Op.setNewTokenRequest caller comment id timeoutTime =>
    AuthManager.setNewTokenRequest self caller comment id timeoutTime
  | Op.acceptTokenRequest id => (AuthManager.acceptTokenRequest issueToken self id).2
  | Op.denyTokenRequest id => (AuthManager.denyTokenRequest issueToken self id).2
  | Op.checkTimeout now => AuthManager.checkTimeout self now

/-- The state after a sequence of calls and all signals emitted, in order. -/
def AuthManager.run (issueToken : AuthTable → AuthDefinition → String × AuthTable)
    (self : AuthManager AuthTable MetaTable QTimer) :
    List Op → AuthManager AuthTable MetaTable QTimer × List Signal
  | [] => (self, [])
  | op :: ops =>
    let r := AuthManager.step issueToken self op
    let rs := AuthManager.run issueToken r.1 ops
    (rs.1, r.2 ++ rs.2)

/-- The states reachable from a manager with an empty pending-request map through
`setNewTokenRequest`, `acceptTokenRequest`, `denyTokenRequest` and `checkTimeout`. -/
inductive AuthManager.Reachable
    (issueToken : AuthTable → AuthDefinition → String × AuthTable) :
    AuthManager AuthTable MetaTable QTimer → Prop where
  | init (s : AuthManager AuthTable MetaTable QTimer) (h : s._pendingRequests = []) :
      AuthManager.Reachable issueToken s
  | step (s : AuthManager AuthTable MetaTable QTimer) (op : Op)
      (h : AuthManager.Reachable issueToken s) :
      AuthManager.Reachable issueToken (AuthManager.step issueToken s op).1

end AuthManagerMembers

/-! ### Concrete states -/

/-- A manager right after construction in which no identity has been stored: `_uuid` is
empty, nothing is pending, the flags have their defaults. The collaborators are a list of
issued tokens, and two objects without state. -/
def freshManager : AuthManager (List String) Unit Unit :=
  { _authTable := [], _metaTable := (), _uuid := "", _pendingRequests := [],
    _authRequired := true, _localAuthRequired := false, _localAdminAuthRequired := true,
    _timer := () }

/-- A token issuer for the concrete states: the token is derived from the request id and
recorded in the store. -/
def sampleIssueToken (tbl : List String) (d : AuthDefinition) : String × List String :=
  ("token-" ++ d.id, ("token-" ++ d.id) :: tbl)

/-- The manager after the submission of the request `r1` with the comment `phone` by
the caller 7, to be answered before time 60. -/
def oneRequestPending : AuthManager (List String) Unit Unit :=
  (AuthManager.step sampleIssueToken freshManager
    (Op.setNewTokenRequest 7 "phone" "r1" 60)).1

/-- The manager after a further submission: the request `r2` with the comment `tv` by the
caller 9, to be answered before time 5. -/
def twoRequestsPending : AuthManager (List String) Unit Unit :=
  (AuthManager.step sampleIssueToken oneRequestPending
    (Op.setNewTokenRequest 9 "tv" "r2" 5)).1

/-- A datagram of eight bytes: two complete LEDs and two trailing bytes. -/
def sampleDatagram : QByteArray := [255, 128, 7, 1, 2, 3, 9, 9]

/-- A listener with priority 50 and a timeout of 10000 ms. -/
def sampleListener : UDPListener := ⟨50, 10000⟩

/-! ## Theorems: UDPListener -/

theorem charToUInt8_byteToChar (signedChar : Bool) (b : Nat) :
    charToUInt8 (byteToChar signedChar b) = b % 256 := by
  unfold charToUInt8 byteToChar
  split <;> omega

theorem body_eq_some (signedChar : Bool) (datagram : QByteArray) (colors : List ColorRgb)
    (i : Nat) (hi : i < colors.length) (hd : i * 3 + 2 < datagram.length) :
    processTheDatagram.body signedChar datagram colors i
      = some (colors.set i (decodeLed datagram i)) := by
  have h0 : i * 3 < datagram.length := by omega
  have h1 : i * 3 + 1 < datagram.length := by omega
  simp [processTheDatagram.body, QByteArray.at, hi, List.getElem?_eq_getElem, h0, h1, hd,
    charToUInt8_byteToChar, decodeLed, List.getD_eq_getElem?_getD]

theorem loopBound_le (datagram : QByteArray) (L i : Nat)
    (hi : i < processTheDatagram.loopBound datagram L) :
    i * 3 + 2 < datagram.length ∧ i < L := by
  unfold processTheDatagram.loopBound at hi
  simp only [lt_min_iff] at hi
  omega

/-- Loop invariant: after `k` iterations the vector still has `L` entries, the first `k`
are decoded from the datagram and the others are black. -/
theorem fold_range_invariant (signedChar : Bool) (datagram : QByteArray) (L : Nat) :
    ∀ k, k ≤ processTheDatagram.loopBound datagram L →
      ∃ colors, (List.range k).foldlM (processTheDatagram.body signedChar datagram)
          (List.replicate L ColorRgb.BLACK) = some colors ∧
        colors.length = L ∧
        (∀ i, i < k → colors[i]? = some (decodeLed datagram i)) ∧
        (∀ i, k ≤ i → i < L → colors[i]? = some ColorRgb.BLACK) := by
  intro k
  induction k with
  | zero =>
    intro _
    refine ⟨List.replicate L ColorRgb.BLACK, by simp, by simp, by simp, ?_⟩
    intro i _ hi
    simp [List.getElem?_replicate, hi]
  | succ k ih =>
    intro hk
    obtain ⟨colors, hfold, hlen, hdec, hblack⟩ := ih (by omega)
    have hb := loopBound_le datagram L k (by omega)
    refine ⟨colors.set k (decodeLed datagram k), ?_, by simp [hlen], ?_, ?_⟩
    · rw [List.range_succ, List.foldlM_append, hfold]
      simp [body_eq_some signedChar datagram colors k (by omega) hb.1]
    · intro i hi
      by_cases hik : i = k
      · subst hik
        simp [List.getElem?_set, hlen, hb.2]
      · rw [List.getElem?_set_ne (by omega)]
        exact hdec i (by omega)
    · intro i hki hiL
      rw [List.getElem?_set_ne (by omega)]
      exact hblack i (by omega) hiL

theorem processTheDatagram_eq (self : UDPListener) (signedChar : Bool) (L : Nat)
    (datagram : QByteArray) (sender : String) :
    ∃ colors, self.processTheDatagram signedChar L datagram sender
        = some ⟨self._priority, colors, self._timeout, -1, sender⟩ ∧
      colors.length = L ∧
      (∀ i, i < processTheDatagram.loopBound datagram L →
        colors[i]? = some (decodeLed datagram i)) ∧
      (∀ i, processTheDatagram.loopBound datagram L ≤ i → i < L →
        colors[i]? = some ColorRgb.BLACK) := by
  obtain ⟨colors, hfold, hlen, hdec, hblack⟩ :=
    fold_range_invariant signedChar datagram L _ (le_refl _)
  refine ⟨colors, ?_, hlen, hdec, hblack⟩
  simp [UDPListener.processTheDatagram, hfold]

theorem decodeLed_congr (d d' : QByteArray) (m i : Nat) (hi : i < m)
    (h : d'.take (3 * m) = d.take (3 * m)) : decodeLed d' i = decodeLed d i := by
  have key : ∀ j, j < 3 * m → d'.getD j 0 = d.getD j 0 := by
    intro j hj
    have h1 : (d'.take (3 * m))[j]? = (d.take (3 * m))[j]? := by rw [h]
    simp only [List.getElem?_take, hj, if_true] at h1
    simp [List.getD_eq_getElem?_getD, h1]
  unfold decodeLed
  rw [key (i * 3 + 0) (by omega), key (i * 3 + 1) (by omega), key (i * 3 + 2) (by omega)]

/-- C8: `processTheDatagram` forwards to `setColors` a vector of exactly `L` colors; entry
`i` below `min (n / 3) L` holds the bytes `3i`, `3i+1`, `3i+2` of the datagram as red,
green and blue, every later entry is black; the call carries the listener's `_priority`
and `_timeout`; and the result does not depend on the bytes from position
`3 * min (n / 3) L` on (the trailing `n mod 3` bytes and the bytes beyond `3L`). -/
theorem processTheDatagram_decodes (self : UDPListener) (signedChar : Bool) (L : Nat)
    (datagram : QByteArray) (sender : String) (hbytes : ∀ b ∈ datagram, b < 256) :
    ∃ call, self.processTheDatagram signedChar L datagram sender = some call ∧
      call.ledColors.length = L ∧
      (∀ i, i < min (datagram.length / 3) L →
        ∃ c, call.ledColors[i]? = some c ∧ datagram[3 * i]? = some c.red ∧
          datagram[3 * i + 1]? = some c.green ∧ datagram[3 * i + 2]? = some c.blue) ∧
      (∀ i, min (datagram.length / 3) L ≤ i → i < L →
        call.ledColors[i]? = some ColorRgb.BLACK) ∧
      call.priority = self._priority ∧ call.timeout_ms = self._timeout ∧
      (∀ datagram' : QByteArray,
        min (datagram'.length / 3) L = min (datagram.length / 3) L →
        datagram'.take (3 * min (datagram.length / 3) L)
          = datagram.take (3 * min (datagram.length / 3) L) →
        self.processTheDatagram signedChar L datagram' sender = some call) := by
  obtain ⟨colors, hcall, hlen, hdec, hblack⟩ :=
    processTheDatagram_eq self signedChar L datagram sender
  refine ⟨_, hcall, hlen, ?_, hblack, rfl, rfl, ?_⟩
  · intro i hi
    have hb := loopBound_le datagram L i hi
    have h0 : 3 * i < datagram.length := by omega
    have h1 : 3 * i + 1 < datagram.length := by omega
    have h2 : 3 * i + 2 < datagram.length := by omega
    have e0 : i * 3 = 3 * i := by omega
    refine ⟨decodeLed datagram i, hdec i hi, ?_, ?_, ?_⟩
    · have := hbytes datagram[3 * i] (List.getElem_mem _)
      simp [decodeLed, e0, List.getD_eq_getElem?_getD, List.getElem?_eq_getElem, h0,
        Nat.mod_eq_of_lt this]
    · have := hbytes datagram[3 * i + 1] (List.getElem_mem _)
      simp [decodeLed, e0, List.getD_eq_getElem?_getD, List.getElem?_eq_getElem, h1,
        Nat.mod_eq_of_lt this]
    · have := hbytes datagram[3 * i + 2] (List.getElem_mem _)
      simp [decodeLed, e0, List.getD_eq_getElem?_getD, List.getElem?_eq_getElem, h2,
        Nat.mod_eq_of_lt this]
  · intro datagram' hmin htake
    obtain ⟨colors', hcall', hlen', hdec', hblack'⟩ :=
      processTheDatagram_eq self signedChar L datagram' sender
    have hbound : processTheDatagram.loopBound datagram' L
        = processTheDatagram.loopBound datagram L := hmin
    have hcolors : colors' = colors := by
      apply List.ext_getElem?
      intro i
      by_cases h1 : i < processTheDatagram.loopBound datagram L
      · rw [hdec i h1, hdec' i (by rw [hbound]; exact h1),
          decodeLed_congr datagram datagram' _ i h1 htake]
      · by_cases h2 : i < L
        · rw [hblack i (by omega) h2, hblack' i (by rw [hbound]; omega) h2]
        · rw [List.getElem?_eq_none (by omega), List.getElem?_eq_none (by omega)]
    rw [hcall', hcolors]

/-- C9: `processTheDatagram` never indexes out of range: for every datagram and LED count
the run completes without a failed access; every loop index `i` satisfies `3i+2 < n` and
`i < L`, so the body succeeds on every vector of `L` colors; and with `n < 3` or `L = 0`
the loop has no iteration. -/
theorem processTheDatagram_in_bounds (self : UDPListener) (signedChar : Bool) (L : Nat)
    (datagram : QByteArray) (sender : String) :
    (self.processTheDatagram signedChar L datagram sender).isSome = true ∧
    (∀ i, i < processTheDatagram.loopBound datagram L →
      3 * i + 2 < datagram.length ∧ i < L ∧
      ∀ colors : List ColorRgb, colors.length = L →
        (processTheDatagram.body signedChar datagram colors i).isSome = true) ∧
    processTheDatagram.loopBound datagram L = min (datagram.length / 3) L ∧
    ((datagram.length < 3 ∨ L = 0) →
      List.range (processTheDatagram.loopBound datagram L) = []) := by
  refine ⟨?_, ?_, rfl, ?_⟩
  · obtain ⟨colors, hcall, -⟩ := processTheDatagram_eq self signedChar L datagram sender
    simp [hcall]
  · intro i hi
    have hb := loopBound_le datagram L i hi
    refine ⟨by omega, hb.2, ?_⟩
    intro colors hlen
    simp [body_eq_some signedChar datagram colors i (by omega) hb.1]
  · intro h
    have : processTheDatagram.loopBound datagram L = 0 := by
      unfold processTheDatagram.loopBound
      rcases h with h | h
      · have : datagram.length / 3 = 0 := by omega
        simp [this]
      · simp [h]
    simp [this]

/-! ## Theorems: the pending-request map -/

theorem value?_eq_none_iff (m : PendingMap) (id : String) :
    PendingMap.value? m id = none ↔ ∀ e ∈ m, e.1 ≠ id := by
  induction m with
  | nil => simp [PendingMap.value?]
  | cons e rest ih =>
    obtain ⟨k, d⟩ := e
    by_cases hk : k = id
    · simp [PendingMap.value?, hk]
    · simp [PendingMap.value?, hk, ih]

theorem value?_eq_some_mem (m : PendingMap) (id : String) (d : AuthDefinition)
    (h : PendingMap.value? m id = some d) : (id, d) ∈ m := by
  induction m with
  | nil => simp [PendingMap.value?] at h
  | cons e rest ih =>
    obtain ⟨k, d'⟩ := e
    by_cases hk : k = id
    · simp [PendingMap.value?, hk] at h
      simp [hk, h]
    · simp only [PendingMap.value?, hk, if_false] at h
      exact List.mem_cons_of_mem _ (ih h)

theorem value?_remove_self (m : PendingMap) (id : String) :
    PendingMap.value? (PendingMap.remove m id) id = none := by
  rw [value?_eq_none_iff]
  intro e he
  simp [PendingMap.remove] at he
  exact he.2

theorem value?_remove_of_none (m : PendingMap) (id id' : String)
    (h : PendingMap.value? m id = none) :
    PendingMap.value? (PendingMap.remove m id') id = none := by
  rw [value?_eq_none_iff] at h ⊢
  intro e he
  exact h e (List.mem_of_mem_filter he)

theorem value?_insert_of_ne (m : PendingMap) (id id' : String) (d : AuthDefinition)
    (hne : id' ≠ id) (h : PendingMap.value? m id = none) :
    PendingMap.value? (PendingMap.insert m id' d) id = none := by
  simp only [PendingMap.insert, PendingMap.value?, hne, if_false]
  exact value?_remove_of_none m id id' h

theorem scan_fst (now : Nat) (m : PendingMap) :
    (checkTimeout.scan now m).1
      = m.filter (fun e => !deadlinePassed e.2.timeoutTime now) := by
  induction m with
  | nil => rfl
  | cons e rest ih =>
    obtain ⟨k, d⟩ := e
    by_cases hp : deadlinePassed d.timeoutTime now = true
    · simp [checkTimeout.scan, hp, ih]
    · simp [checkTimeout.scan, hp, ih]

theorem scan_snd (now : Nat) (m : PendingMap) :
    (checkTimeout.scan now m).2
      = (m.filter (fun e => deadlinePassed e.2.timeoutTime now)).map
          (fun e => Signal.tokenResponse false e.2.caller "" e.2.comment e.2.id) := by
  induction m with
  | nil => rfl
  | cons e rest ih =>
    obtain ⟨k, d⟩ := e
    by_cases hp : deadlinePassed d.timeoutTime now = true
    · simp [checkTimeout.scan, hp, ih]
    · simp [checkTimeout.scan, hp, ih]

theorem scan_idempotent (now : Nat) (m : PendingMap) :
    checkTimeout.scan now (checkTimeout.scan now m).1 = ((checkTimeout.scan now m).1, []) := by
  apply Prod.ext
  · simp [scan_fst, List.filter_filter]
  · simp [scan_snd, scan_fst, List.filter_filter]

theorem eq_singleton_of_length_le_one {α : Type} (l : List α) (a : α)
    (hlen : l.length ≤ 1) (ha : a ∈ l) : l = [a] := by
  match l, hlen, ha with
  | [x], _, ha =>
    simp at ha
    simp [ha]
  | _ :: _ :: _, hlen, _ => simp at hlen

theorem entriesOf_eq_nil (m : PendingMap) (id : String) (h : id ∉ PendingMap.keys m) :
    PendingMap.entriesOf m id = [] := by
  simp only [PendingMap.entriesOf]
  rw [List.filter_eq_nil_iff]
  intro e he hk
  apply h
  simp only [PendingMap.keys, List.mem_map]
  exact ⟨e, he, by simpa using hk⟩

theorem entriesOf_length_le_one (m : PendingMap) (h : (PendingMap.keys m).Nodup)
    (id : String) : (PendingMap.entriesOf m id).length ≤ 1 := by
  induction m with
  | nil => simp [PendingMap.entriesOf]
  | cons e rest ih =>
    simp only [PendingMap.keys, List.map_cons, List.nodup_cons] at h
    by_cases hk : e.1 = id
    · have hnil := entriesOf_eq_nil rest id (by rw [← hk]; exact h.1)
      simp only [PendingMap.entriesOf] at hnil
      simp [PendingMap.entriesOf, List.filter_cons, hk, hnil]
    · have := ih h.2
      simp only [PendingMap.entriesOf] at this
      simp [PendingMap.entriesOf, List.filter_cons, hk, this]

theorem entriesOf_eq_singleton (m : PendingMap) (hwf : PendingMap.WellFormed m)
    (e : String × AuthDefinition) (he : e ∈ m) : PendingMap.entriesOf m e.1 = [e] := by
  apply eq_singleton_of_length_le_one _ _ (entriesOf_length_le_one m hwf.1 e.1)
  simp [PendingMap.entriesOf, he]

theorem scan_emitted_for_id (now : Nat) (m : PendingMap) (hwf : PendingMap.WellFormed m)
    (e : String × AuthDefinition) (he : e ∈ m)
    (hp : deadlinePassed e.2.timeoutTime now = true) :
    (checkTimeout.scan now m).2.filter (fun sig => decide (sig.requestId = e.2.id))
      = [Signal.tokenResponse false e.2.caller "" e.2.comment e.2.id] := by
  have hfilter : m.filter (fun e' => decide (e'.2.id = e.2.id)
      && deadlinePassed e'.2.timeoutTime now) = [e] := by
    have hcongr : m.filter (fun e' => decide (e'.2.id = e.2.id)
          && deadlinePassed e'.2.timeoutTime now)
        = (PendingMap.entriesOf m e.1).filter
            (fun e' => deadlinePassed e'.2.timeoutTime now) := by
      simp only [PendingMap.entriesOf, List.filter_filter]
      apply List.filter_congr
      intro x hx
      rw [hwf.2 x hx, hwf.2 e he, Bool.and_comm]
    rw [hcongr, entriesOf_eq_singleton m hwf e he]
    simp [hp]
  rw [scan_snd, List.filter_map, List.filter_filter]
  have hfun : (fun a => ((fun sig => decide (Signal.requestId sig = e.2.id)) ∘
        fun e => Signal.tokenResponse false e.2.caller "" e.2.comment e.2.id) a
        && deadlinePassed a.2.timeoutTime now)
      = (fun e' : String × AuthDefinition => decide (e'.2.id = e.2.id)
          && deadlinePassed e'.2.timeoutTime now) := by
    funext a
    simp [Signal.requestId]
  rw [hfun, hfilter]
  rfl

theorem wellFormed_nil : PendingMap.WellFormed [] := by
  constructor
  · simp [PendingMap.keys]
  · intro e he
    simp at he

theorem wellFormed_filter (m : PendingMap) (p : String × AuthDefinition → Bool)
    (hwf : PendingMap.WellFormed m) : PendingMap.WellFormed (m.filter p) := by
  constructor
  · exact List.Nodup.sublist (List.Sublist.map _ (List.filter_sublist m)) hwf.1
  · intro e he
    exact hwf.2 e (List.mem_of_mem_filter he)

theorem entriesOf_remove_self (m : PendingMap) (id : String) :
    PendingMap.entriesOf (PendingMap.remove m id) id = [] := by
  simp only [PendingMap.entriesOf, PendingMap.remove, List.filter_filter]
  rw [List.filter_eq_nil_iff]
  intro e _
  simp

theorem entriesOf_remove_of_ne (m : PendingMap) (id id' : String) (hne : id ≠ id') :
    PendingMap.entriesOf (PendingMap.remove m id) id' = PendingMap.entriesOf m id' := by
  simp only [PendingMap.entriesOf, PendingMap.remove, List.filter_filter]
  apply List.filter_congr
  intro e _
  by_cases h : e.1 = id'
  · have : ¬ id' = id := fun h2 => hne h2.symm
    simp [h, this]
  · simp [h]

theorem entriesOf_insert_self (m : PendingMap) (id : String) (d : AuthDefinition) :
    PendingMap.entriesOf (PendingMap.insert m id d) id = [(id, d)] := by
  have h := entriesOf_remove_self m id
  simp only [PendingMap.entriesOf] at h
  simp [PendingMap.insert, PendingMap.entriesOf, List.filter_cons, h]

theorem entriesOf_insert_of_ne (m : PendingMap) (id id' : String) (d : AuthDefinition)
    (hne : id ≠ id') :
    PendingMap.entriesOf (PendingMap.insert m id d) id' = PendingMap.entriesOf m id' := by
  have h := entriesOf_remove_of_ne m id id' hne
  simp only [PendingMap.entriesOf] at h
  simp [PendingMap.insert, PendingMap.entriesOf, List.filter_cons, hne, h]

theorem wellFormed_insert (m : PendingMap) (id : String) (d : AuthDefinition)
    (hid : d.id = id) (hwf : PendingMap.WellFormed m) :
    PendingMap.WellFormed (PendingMap.insert m id d) := by
  have hrem := wellFormed_filter m (fun e => !decide (e.1 = id)) hwf
  constructor
  · simp only [PendingMap.insert, PendingMap.keys, List.map_cons, List.nodup_cons]
    refine ⟨?_, hrem.1⟩
    intro hmem
    simp only [PendingMap.remove, List.mem_map, List.mem_filter] at hmem
    obtain ⟨e, ⟨_, hne⟩, heq⟩ := hmem
    simp [heq] at hne
  · intro e he
    simp only [PendingMap.insert, List.mem_cons] at he
    rcases he with he | he
    · simp [he, hid]
    · exact hrem.2 e he

/-! ## Theorems: resolving a request -/

section AuthManagerTheorems

variable {AuthTable MetaTable QTimer : Type}

theorem acceptTokenRequest_of_none
    (issueToken : AuthTable → AuthDefinition → String × AuthTable)
    (s : AuthManager AuthTable MetaTable QTimer) (id : String)
    (h : PendingMap.value? s._pendingRequests id = none) :
    AuthManager.acceptTokenRequest issueToken s id = (false, s, []) := by
  simp [AuthManager.acceptTokenRequest, AuthManager.resolve, h]

theorem denyTokenRequest_of_none
    (issueToken : AuthTable → AuthDefinition → String × AuthTable)
    (s : AuthManager AuthTable MetaTable QTimer) (id : String)
    (h : PendingMap.value? s._pendingRequests id = none) :
    AuthManager.denyTokenRequest issueToken s id = (false, s, []) := by
  simp [AuthManager.denyTokenRequest, AuthManager.resolve, h]

theorem acceptTokenRequest_pending
    (issueToken : AuthTable → AuthDefinition → String × AuthTable)
    (s : AuthManager AuthTable MetaTable QTimer) (id : String) :
    (AuthManager.acceptTokenRequest issueToken s id).2.1._pendingRequests
      = PendingMap.remove s._pendingRequests id := by
  cases h : PendingMap.value? s._pendingRequests id with
  | none =>
    rw [acceptTokenRequest_of_none issueToken s id h]
    rw [value?_eq_none_iff] at h
    simp only [PendingMap.remove]
    rw [List.filter_eq_self.mpr]
    intro e he
    simp [h e he]
  | some d => simp [AuthManager.acceptTokenRequest, AuthManager.resolve, h]

theorem denyTokenRequest_pending
    (issueToken : AuthTable → AuthDefinition → String × AuthTable)
    (s : AuthManager AuthTable MetaTable QTimer) (id : String) :
    (AuthManager.denyTokenRequest issueToken s id).2.1._pendingRequests
      = PendingMap.remove s._pendingRequests id := by
  cases h : PendingMap.value? s._pendingRequests id with
  | none =>
    rw [denyTokenRequest_of_none issueToken s id h]
    rw [value?_eq_none_iff] at h
    simp only [PendingMap.remove]
    rw [List.filter_eq_self.mpr]
    intro e he
    simp [h e he]
  | some d => simp [AuthManager.denyTokenRequest, AuthManager.resolve, h]

theorem step_preserves_absent
    (issueToken : AuthTable → AuthDefinition → String × AuthTable)
    (s : AuthManager AuthTable MetaTable QTimer) (id : String) (op : Op)
    (hop : Op.submits id op = false)
    (h : PendingMap.value? s._pendingRequests id = none) :
    PendingMap.value? (AuthManager.step issueToken s op).1._pendingRequests id = none := by
  cases op with
  | setNewTokenRequest caller comment rid timeoutTime =>
    have hne : rid ≠ id := by simpa [Op.submits] using hop
    exact value?_insert_of_ne _ _ _ _ hne h
  | acceptTokenRequest rid =>
    simp only [AuthManager.step]
    rw [acceptTokenRequest_pending]
    exact value?_remove_of_none _ _ _ h
  | denyTokenRequest rid =>
    simp only [AuthManager.step]
    rw [denyTokenRequest_pending]
    exact value?_remove_of_none _ _ _ h
  | checkTimeout now =>
    simp only [AuthManager.step, AuthManager.checkTimeout, scan_fst]
    rw [value?_eq_none_iff] at h ⊢
    intro e he
    exact h e (List.mem_of_mem_filter he)

theorem run_preserves_absent
    (issueToken : AuthTable → AuthDefinition → String × AuthTable) (id : String)
    (ops : List Op) :
    ∀ s : AuthManager AuthTable MetaTable QTimer,
      ops.any (Op.submits id) = false →
      PendingMap.value? s._pendingRequests id = none →
      PendingMap.value? (AuthManager.run issueToken s ops).1._pendingRequests id = none := by
  induction ops with
  | nil => intro s _ h; exact h
  | cons op ops ih =>
    intro s hops h
    simp only [List.any_cons, Bool.or_eq_false_iff] at hops
    simp only [AuthManager.run]
    exact ih _ hops.2 (step_preserves_absent issueToken s id op hops.1 h)

/-- C1: once `acceptTokenRequest(id)` or `denyTokenRequest(id)` has been called, a later
`acceptTokenRequest(id)` or `denyTokenRequest(id)`, after any calls that do not submit
that id again, returns `false`, leaves the manager (and so the pending-request map) as it
was and emits no signal. `first` and `second` say whether the first and the later call
accept (`true`) or deny (`false`). -/
theorem resolve_twice_not_found
    (issueToken : AuthTable → AuthDefinition → String × AuthTable)
    (s : AuthManager AuthTable MetaTable QTimer) (id : String) (first second : Bool)
    (ops : List Op) (hops : ops.any (Op.submits id) = false) :
    (if second = true then
        AuthManager.acceptTokenRequest issueToken
          (AuthManager.run issueToken
            (if first = true then AuthManager.acceptTokenRequest issueToken s id
              else AuthManager.denyTokenRequest issueToken s id).2.1 ops).1 id
      else
        AuthManager.denyTokenRequest issueToken
          (AuthManager.run issueToken
            (if first = true then AuthManager.acceptTokenRequest issueToken s id
              else AuthManager.denyTokenRequest issueToken s id).2.1 ops).1 id)
      = (false,
          (AuthManager.run issueToken
            (if first = true then AuthManager.acceptTokenRequest issueToken s id
              else AuthManager.denyTokenRequest issueToken s id).2.1 ops).1,
          []) := by
  have h1 : PendingMap.value?
      (if first = true then AuthManager.acceptTokenRequest issueToken s id
        else AuthManager.denyTokenRequest issueToken s id).2.1._pendingRequests id = none := by
    cases first
    · simp only [Bool.false_eq_true, if_false]
      rw [denyTokenRequest_pending]
      exact value?_remove_self _ _
    · simp only [if_true]
      rw [acceptTokenRequest_pending]
      exact value?_remove_self _ _
  have h2 := run_preserves_absent issueToken id ops _ hops h1
  cases second
  · simp only [Bool.false_eq_true, if_false]
    exact denyTokenRequest_of_none issueToken _ id h2
  · simp only [if_true]
    exact acceptTokenRequest_of_none issueToken _ id h2

/-- C2: one run of `checkTimeout` keeps exactly the entries whose deadline has not
passed, unchanged and in place, and touches no other member; it emits one
`tokenResponse(false, caller, "", comment, id)` per removed entry, built from that
entry, and nothing else, so that in a map with one entry per id the signals for the id of
a removed entry are exactly that one; a second run at the same time changes nothing and
emits nothing. -/
theorem checkTimeout_sweep (s : AuthManager AuthTable MetaTable QTimer) (now : Nat) :
    (AuthManager.checkTimeout s now).1._pendingRequests
        = s._pendingRequests.filter (fun e => !deadlinePassed e.2.timeoutTime now) ∧
    (∀ e, e ∈ (AuthManager.checkTimeout s now).1._pendingRequests ↔
        e ∈ s._pendingRequests ∧ deadlinePassed e.2.timeoutTime now = false) ∧
    (AuthManager.checkTimeout s now).1
        = { s with _pendingRequests := (AuthManager.checkTimeout s now).1._pendingRequests } ∧
    (AuthManager.checkTimeout s now).2
        = (s._pendingRequests.filter (fun e => deadlinePassed e.2.timeoutTime now)).map
            (fun e => Signal.tokenResponse false e.2.caller "" e.2.comment e.2.id) ∧
    (PendingMap.WellFormed s._pendingRequests →
      ∀ e ∈ s._pendingRequests, deadlinePassed e.2.timeoutTime now = true →
        (AuthManager.checkTimeout s now).2.filter
            (fun sig => decide (sig.requestId = e.2.id))
          = [Signal.tokenResponse false e.2.caller "" e.2.comment e.2.id]) ∧
    AuthManager.checkTimeout (AuthManager.checkTimeout s now).1 now
        = ((AuthManager.checkTimeout s now).1, []) := by
  refine ⟨?_, ?_, rfl, ?_, ?_, ?_⟩
  · simp [AuthManager.checkTimeout, scan_fst]
  · intro e
    simp [AuthManager.checkTimeout, scan_fst]
  · simp [AuthManager.checkTimeout, scan_snd]
  · intro hwf e he hp
    exact scan_emitted_for_id now _ hwf e he hp
  · simp only [AuthManager.checkTimeout, scan_idempotent]

theorem step_preserves_wellFormed
    (issueToken : AuthTable → AuthDefinition → String × AuthTable)
    (s : AuthManager AuthTable MetaTable QTimer) (op : Op)
    (hwf : PendingMap.WellFormed s._pendingRequests) :
    PendingMap.WellFormed (AuthManager.step issueToken s op).1._pendingRequests := by
  cases op with
  | setNewTokenRequest caller comment rid timeoutTime =>
    exact wellFormed_insert _ _ _ rfl hwf
  | acceptTokenRequest rid =>
    simp only [AuthManager.step]
    rw [acceptTokenRequest_pending]
    exact wellFormed_filter _ _ hwf
  | denyTokenRequest rid =>
    simp only [AuthManager.step]
    rw [denyTokenRequest_pending]
    exact wellFormed_filter _ _ hwf
  | checkTimeout now =>
    simp only [AuthManager.step, AuthManager.checkTimeout, scan_fst]
    exact wellFormed_filter _ _ hwf

theorem reachable_wellFormed
    (issueToken : AuthTable → AuthDefinition → String × AuthTable)
    (s : AuthManager AuthTable MetaTable QTimer)
    (h : AuthManager.Reachable issueToken s) :
    PendingMap.WellFormed s._pendingRequests := by
  induction h with
  | init s h0 => rw [h0]; exact wellFormed_nil
  | step s op _ ih => exact step_preserves_wellFormed issueToken s op ih

/-- C3: in every state reachable through `setNewTokenRequest`, `acceptTokenRequest`,
`denyTokenRequest` and `checkTimeout` the pending-request map holds no key twice, so at
most one entry per id, and every entry is stored under the key equal to its own `id`
field; after a
submission, whether or not the id was pending before, `getPendingRequests()` shows under
that id exactly one entry, the one of this submission with its comment and caller, and
the entries of every other id are as before. -/
theorem pendingRequests_one_entry_per_id
    (issueToken : AuthTable → AuthDefinition → String × AuthTable)
    (s : AuthManager AuthTable MetaTable QTimer)
    (h : AuthManager.Reachable issueToken s) :
    (PendingMap.keys s._pendingRequests).Nodup ∧
    (∀ id, (PendingMap.entriesOf s._pendingRequests id).length ≤ 1) ∧
    (∀ e ∈ s._pendingRequests, e.2.id = e.1) ∧
    (∀ (caller : QObjectPtr) (comment id : String) (timeoutTime : Nat),
      PendingMap.entriesOf
          (AuthManager.getPendingRequests
            (AuthManager.setNewTokenRequest s caller comment id timeoutTime).1).1 id
        = [(id, ⟨id, comment, caller, timeoutTime, "", ""⟩)] ∧
      ∀ id', id ≠ id' →
        PendingMap.entriesOf
            (AuthManager.getPendingRequests
              (AuthManager.setNewTokenRequest s caller comment id timeoutTime).1).1 id'
          = PendingMap.entriesOf s._pendingRequests id') := by
  have hwf := reachable_wellFormed issueToken s h
  refine ⟨hwf.1, entriesOf_length_le_one _ hwf.1, hwf.2, ?_⟩
  intro caller comment id timeoutTime
  refine ⟨?_, ?_⟩
  · exact entriesOf_insert_self _ _ _
  · intro id' hne
    exact entriesOf_insert_of_ne _ _ _ _ hne

/-! ## Theorems: members defined in the header -/

/-- C4: `hasHyperionDefaultPw()` is the call `isUserAuthorized("Hyperion", "hyperion")`:
it returns `true` exactly when that call does, with the same state afterwards, and the
user name is the default argument of `getUserToken`. -/
theorem hasHyperionDefaultPw_iff
    (isUserAuthorized : AuthManager AuthTable MetaTable QTimer → String → String →
      Bool × AuthManager AuthTable MetaTable QTimer)
    (s : AuthManager AuthTable MetaTable QTimer) :
    ((AuthManager.hasHyperionDefaultPw isUserAuthorized s).1 = true ↔
      (isUserAuthorized s "Hyperion" "hyperion").1 = true) ∧
    AuthManager.hasHyperionDefaultPw isUserAuthorized s
      = isUserAuthorized s AuthManager.getUserToken.usrDefault "hyperion" ∧
    AuthManager.getUserToken.usrDefault = "Hyperion" := by
  refine ⟨Iff.rfl, rfl, rfl⟩

/-- C5, as amended: `getID()` returns the stored `_uuid` and creates nothing: the manager
is unchanged, a later call returns the same string, and the result is non-empty exactly
when `_uuid` is. -/
theorem getID_returns_uuid (s : AuthManager AuthTable MetaTable QTimer) :
    (AuthManager.getID s).1 = s._uuid ∧
    (AuthManager.getID s).2 = s ∧
    (AuthManager.getID (AuthManager.getID s).2).1 = (AuthManager.getID s).1 ∧
    ((AuthManager.getID s).1 ≠ "" ↔ s._uuid ≠ "") := by
  refine ⟨rfl, rfl, rfl, Iff.rfl⟩

/-- C6: `isAuthRequired()`, `isLocalAuthRequired()` and `isLocalAdminAuthRequired()` each
return their own flag and leave the manager unchanged. -/
theorem authFlags_pure_reads (s : AuthManager AuthTable MetaTable QTimer) :
    AuthManager.isAuthRequired s = (s._authRequired, s) ∧
    AuthManager.isLocalAuthRequired s = (s._localAuthRequired, s) ∧
    AuthManager.isLocalAdminAuthRequired s = (s._localAdminAuthRequired, s) := by
  refine ⟨rfl, rfl, rfl⟩

end AuthManagerTheorems

/-! ## Theorems at concrete inputs -/

/-- C5, the claim as stated fails: on a manager whose `_uuid` is empty `getID()` returns
the empty string. -/
theorem getID_freshManager_empty : ¬ ((AuthManager.getID freshManager).1 ≠ "") := by
  simp [AuthManager.getID, freshManager]

/-- C7: the command lines `-d 2` and `-d 3` give different display values, and `main`
hands the display argument 1 to the `OsxWrapper` for both, as it does for every command
line that gives a display value. -/
theorem osxWrapper_display_ignores_value :
    commandLineDisplay2.display ≠ commandLineDisplay3.display ∧
    (main.osxWrapper commandLineDisplay2).display = 1 ∧
    (main.osxWrapper commandLineDisplay3).display = 1 ∧
    ∀ (d : String) (framerate width height : Int),
      (main.osxWrapper ⟨some d, framerate, width, height⟩).display = 1 := by
  refine ⟨by decide, rfl, rfl, ?_⟩
  intro d framerate width height
  rfl

/-- Witness for C1: `r1` is pending, it is accepted, `r2` is submitted and a sweep runs,
then `r1` is denied: the denial returns `false`, changes nothing and emits nothing. -/
theorem resolve_twice_not_found_witness :
    [Op.setNewTokenRequest 9 "tv" "r2" 5, Op.checkTimeout 6].any (Op.submits "r1") = false ∧
    AuthManager.denyTokenRequest sampleIssueToken
        (AuthManager.run sampleIssueToken
          (AuthManager.acceptTokenRequest sampleIssueToken oneRequestPending "r1").2.1
          [Op.setNewTokenRequest 9 "tv" "r2" 5, Op.checkTimeout 6]).1 "r1"
      = (false,
          (AuthManager.run sampleIssueToken
            (AuthManager.acceptTokenRequest sampleIssueToken oneRequestPending "r1").2.1
            [Op.setNewTokenRequest 9 "tv" "r2" 5, Op.checkTimeout 6]).1,
          []) :=
  ⟨by decide,
    resolve_twice_not_found sampleIssueToken oneRequestPending "r1" true false
      [Op.setNewTokenRequest 9 "tv" "r2" 5, Op.checkTimeout 6] (by decide)⟩

/-- Witness for C2: with `r1` (deadline 60) and `r2` (deadline 5) pending, the sweep at
time 6 emits for `r2` exactly the denial of `r2`. -/
theorem checkTimeout_sweep_witness :
    PendingMap.WellFormed twoRequestsPending._pendingRequests ∧
    (AuthManager.checkTimeout twoRequestsPending 6).2.filter
        (fun sig => decide (sig.requestId = "r2"))
      = [Signal.tokenResponse false 9 "" "tv" "r2"] :=
  ⟨by decide, (checkTimeout_sweep twoRequestsPending 6).2.2.2.2.1 (by decide)
    ("r2", ⟨"r2", "tv", 9, 5, "", ""⟩) (by decide) (by decide)⟩

/-- Witness for C3: the state with `r1` pending is reachable and holds `r1`; a second
submission of `r1` leaves under `r1` exactly the second submission. -/
theorem pendingRequests_one_entry_per_id_witness :
    AuthManager.Reachable sampleIssueToken oneRequestPending ∧
    PendingMap.contains oneRequestPending._pendingRequests "r1" = true ∧
    PendingMap.entriesOf
        (AuthManager.getPendingRequests
          (AuthManager.setNewTokenRequest oneRequestPending 8 "tablet" "r1" 70).1).1 "r1"
      = [("r1", ⟨"r1", "tablet", 8, 70, "", ""⟩)] :=
  have hreach : AuthManager.Reachable sampleIssueToken oneRequestPending :=
    AuthManager.Reachable.step _ _ (AuthManager.Reachable.init freshManager rfl)
  ⟨hreach, by decide,
    ((pendingRequests_one_entry_per_id sampleIssueToken oneRequestPending hreach).2.2.2
      8 "tablet" "r1" 70).1⟩

/-- Witness for C8: the sample datagram holds bytes only, and with three LEDs the call
made carries three colors. -/
theorem processTheDatagram_decodes_witness :
    (∀ b ∈ sampleDatagram, b < 256) ∧
    ∃ call, sampleListener.processTheDatagram true 3 sampleDatagram "192.168.0.2"
        = some call ∧
      call.ledColors.length = 3 ∧
      call.ledColors[0]? = some ⟨255, 128, 7⟩ ∧
      call.ledColors[2]? = some ColorRgb.BLACK :=
  ⟨by decide, by
    obtain ⟨call, hcall, hlen, hdec, hblack, -⟩ :=
      processTheDatagram_decodes sampleListener true 3 sampleDatagram "192.168.0.2"
        (by decide)
    refine ⟨call, hcall, hlen, ?_, hblack 2 (by decide) (by decide)⟩
    obtain ⟨c, hc, hr, hg, hb⟩ := hdec 0 (by decide)
    obtain ⟨r, g, b⟩ := c
    simp [sampleDatagram] at hr hg hb
    rw [hc, ← hr, ← hg, ← hb]⟩

end Hyperion
